import Mathlib

/-
Verification of the Alembic geometry-cache importer
(intern/cycles/render/alembic.cpp).

Times (Alembic chrono_t, a double) are modelled as rationals; the Imath
matrix/vector/quaternion library is an external collaborator and its
operations (decomposition, lerp, slerp, recomposition, multiplication) are
modelled as an abstract operation bundle, while all control flow, sample
selection, map/set manipulation and index arithmetic of the importer itself
is embedded concretely from the source.  Where a bit-level matrix comparison
occurs in the source, matrices are modelled concretely as 4 x 4 rational
grids (M44d below).
-/

namespace CyclesAlembic

/-- Concrete model of Imath M44d where the importer inspects matrix entries:
a 4 x 4 grid of rationals, row-major. -/
abbrev M44d := List (List ℚ)

/-- Imath Matrix44 constructor from a single scalar: every entry is set to
that scalar. -/
def m44_fill (a : ℚ) : M44d :=
  List.replicate 4 (List.replicate 4 a)

/-- Imath Matrix44 default constructor: the identity matrix. -/
def m44_identity : M44d :=
  [[1, 0, 0, 0], [0, 1, 0, 0], [0, 0, 1, 0], [0, 0, 0, 1]]

/-- Three-component vector of rationals (Imath V3d / float3). -/
abbrev V3 := ℚ × ℚ × ℚ

/-- Source make_float3_from_yup: (x, y, z) becomes (x, -z, y). -/
def make_float3_from_yup (v : V3) : V3 :=
  (v.1, -v.2.2, v.2.1)

/-- Inverse of the y-up to z-up remap, from the spec: (x, y, z) becomes
(x, z, -y); used only to state the round-trip property. -/
def make_yup_from_zup (v : V3) : V3 :=
  (v.1, v.2.2, -v.2.1)

/-- External Imath operations used by convert_yup_zup, over an abstract
matrix type M: SHRT extraction, matrix builders from Euler angles, scale and
translation, and matrix multiplication. -/
structure YupOps (M : Type) where
  extractSHRT : M → V3 × V3 × V3 × V3
  eulerMat : V3 → M
  scaleMat : V3 → M
  transMat : V3 → M
  mmul : M → M → M

/-- Source convert_yup_zup: extract scale, shear, rotation, translation;
rebuild from the remapped rotation (x, -z, y), remapped scale (x, z, y) and
remapped translation (x, -z, y) as scale * rotation * translation. -/
def convert_yup_zup {M : Type} (ops : YupOps M) (mtx : M) : M :=
  let d := ops.extractSHRT mtx
  let scale := d.1
  let rotation := d.2.2.1
  let translation := d.2.2.2
  let rot_mat := ops.eulerMat (rotation.1, -rotation.2.2, rotation.2.1)
  let scale_mat := ops.scaleMat (scale.1, scale.2.2, scale.2.1)
  let trans_mat := ops.transMat (translation.1, -translation.2.2, translation.2.1)
  ops.mmul (ops.mmul scale_mat rot_mat) trans_mat

/-- External Imath operations used by the matrix-sample interpolation
pipeline, over an abstract matrix type M, vector type V (scale, shear,
translation components) and quaternion type Q: transform_decompose (scale,
shear, rotation, translation), transform_compose, component lerp, quaternion
slerp, quaternion dot product, quaternion negation, matrix multiplication
and the default-constructed (identity) matrix. -/
structure ImathOps (M V Q : Type) where
  decompose : M → V × V × Q × V
  compose : V → V → Q → V → M
  vlerp : V → V → ℚ → V
  qslerp : Q → Q → ℚ → Q
  qdot : Q → Q → ℚ
  qneg : Q → Q
  mmul : M → M → M
  identity : M

/-- MatrixSampleMap (std::map from chrono_t to M44d) modelled as an
association list; the std::map invariant is strictly increasing keys. -/
abbrev SampleMap (M : Type) := List (ℚ × M)

/-- Key list of a sample map. -/
abbrev sm_keys {M : Type} (samples : SampleMap M) : List ℚ :=
  samples.map Prod.fst

/-- Strictly-increasing-keys invariant of std::map. -/
abbrev sm_sorted {M : Type} (samples : SampleMap M) : Prop :=
  (sm_keys samples).Sorted (· < ·)

/-- Exact-match lookup, modelling std::map find. -/
def sm_find {M : Type} (samples : SampleMap M) (time : ℚ) : Option M :=
  match samples with
  | [] => none
  | p :: rest => if p.1 = time then some p.2 else sm_find rest time

/-- Source get_matrix_for_time: the sample stored at exactly the given time,
or the identity matrix if there is no exact match. -/
def get_matrix_for_time {M V Q : Type} (ops : ImathOps M V Q)
    (samples : SampleMap M) (time : ℚ) : M :=
  match sm_find samples time with
  | some m => m
  | none => ops.identity

/-- One iteration of the bracketing loop of get_interpolated_matrix_for_time,
on the pair (prev_time, next_time), embedded exactly as written in the
source (including the comparison used for next_time). -/
def bracket_step (time : ℚ) (pn : ℚ × ℚ) (current : ℚ) : ℚ × ℚ :=
  let p := if pn.1 < current ∧ current ≤ time then current else pn.1
  let n := if pn.2 < current ∧ time ≤ current then current else pn.2
  (p, n)

/-- Bracketing-times computation of get_interpolated_matrix_for_time:
prev_time starts at the first key, next_time at the last key, then one pass
over all keys applying bracket_step. -/
def find_bracket_times (keys : List ℚ) (time : ℚ) : ℚ × ℚ :=
  keys.foldl (bracket_step time) (keys.headD 0, keys.getLastD 0)

/-- Source get_interpolated_matrix_for_time: identity on the empty map,
exact match returned verbatim, single sample returned for every time, clamp
to the first and last samples outside the key range, and otherwise an
interpolation between the two matrices found by find_bracket_times, with the
next rotation negated when its dot product with the previous rotation is
negative. -/
def get_interpolated_matrix_for_time {M V Q : Type} (ops : ImathOps M V Q)
    (samples : SampleMap M) (time : ℚ) : M :=
  match samples with
  | [] => ops.identity
  | first :: rest =>
    match sm_find (first :: rest) time with
    | some m => m
    | none =>
      if rest.length = 0 then first.2
      else if time ≤ first.1 then first.2
      else if ((first :: rest).getLast (List.cons_ne_nil first rest)).1 ≤ time then
        ((first :: rest).getLast (List.cons_ne_nil first rest)).2
      else
        let pn := find_bracket_times (sm_keys (first :: rest)) time
        let prev_mat := get_matrix_for_time ops (first :: rest) pn.1
        let next_mat := get_matrix_for_time ops (first :: rest) pn.2
        let pd := ops.decompose prev_mat
        let nd := ops.decompose next_mat
        let t := (time - pn.1) / (pn.2 - pn.1)
        let next_rot := if ops.qdot pd.2.2.1 nd.2.2.1 < 0 then ops.qneg nd.2.2.1 else nd.2.2.1
        ops.compose (ops.vlerp pd.1 nd.1 t) (ops.vlerp pd.2.1 nd.2.1 t)
          (ops.qslerp pd.2.2.1 next_rot t) (ops.vlerp pd.2.2.2 nd.2.2.2 t)

/-- Insertion into a sorted duplicate-free list of times, modelling
std::set of chrono_t. -/
def set_insert (x : ℚ) : List ℚ → List ℚ
  | [] => [x]
  | y :: rest =>
    if x < y then x :: y :: rest
    else if x = y then y :: rest
    else y :: set_insert x rest

/-- The union_of_samples set built by concatenate_xform_samples: all parent
keys are inserted, then all local keys. -/
def sample_union {M : Type} (parent_samples local_samples : SampleMap M) : List ℚ :=
  (sm_keys parent_samples ++ sm_keys local_samples).foldl
    (fun acc t => set_insert t acc) []

/-- Source concatenate_xform_samples: for each time in the union of the key
sets, store local(t) * parent(t). -/
def concatenate_xform_samples {M V Q : Type} (ops : ImathOps M V Q)
    (parent_samples local_samples : SampleMap M) : SampleMap M :=
  (sample_union parent_samples local_samples).map (fun time =>
    (time, ops.mmul (get_interpolated_matrix_for_time ops local_samples time)
                    (get_interpolated_matrix_for_time ops parent_samples time)))

/-- Source make_transform: convert the matrix through convert_yup_zup and
cast it into the renderer Transform representation T; the float cast and the
Transform type are external, modelled by the cast parameter. -/
def make_transform {T : Type} (yops : YupOps M44d) (cast : M44d → T) (a : M44d) : T :=
  cast (convert_yup_zup yops a)

/-- Source AlembicObject::setup_transform_cache, embedded exactly: the local
first_matrix variable is initialized from the first entry of xform_samples
through the member access written in the source, which selects the time key
and converts it through the scalar Matrix44 constructor (m44_fill); each
sample matrix is then compared against that matrix to decide has_animation.
An empty sample set yields a single transform_identity sample at time 0. -/
def setup_transform_cache {T : Type} (yops : YupOps M44d) (cast : M44d → T)
    (transform_identity : T) (xform_samples : SampleMap M44d) : List (ℚ × T) :=
  match xform_samples with
  | [] => [(0, transform_identity)]
  | p :: _ =>
    let first_matrix : M44d := m44_fill p.1
    let has_animation := xform_samples.any (fun pair => pair.2 != first_matrix)
    if has_animation then
      xform_samples.map (fun pair => (pair.1, make_transform yops cast pair.2))
    else
      [(0, make_transform yops cast first_matrix)]

/-- Triangles produced for one face by the inner loop of add_triangles:
for j below count - 2, the triangle (indices[offset], indices[offset+j+1],
indices[offset+j+2]). -/
def fan_face_triangles (idx : List Int) (offset : Nat) (n : Nat) :
    List (Int × Int × Int) :=
  (List.range (n - 2)).map (fun j =>
    (idx.getD offset 0, idx.getD (offset + j + 1) 0, idx.getD (offset + j + 2) 0))

/-- Loop-index triples produced for one face by the inner loop of
add_triangles: (offset, offset+j+1, offset+j+2). -/
def fan_face_loops (offset : Nat) (n : Nat) : List (Nat × Nat × Nat) :=
  (List.range (n - 2)).map (fun j => (offset, offset + j + 1, offset + j + 2))

/-- Outer loop of add_triangles over the face-count array, threading the
running index_offset. -/
def add_triangles_go (idx : List Int) :
    List Nat → Nat → List (Int × Int × Int) × List (Nat × Nat × Nat)
  | [], _ => ([], [])
  | n :: rest, offset =>
    let r := add_triangles_go idx rest (offset + n)
    (fan_face_triangles idx offset n ++ r.1, fan_face_loops offset n ++ r.2)

/-- Source add_triangles: fan-triangulate every face of the flattened face
list, returning the triangle array and the parallel loop-index array. -/
def add_triangles (face_counts : List Nat) (face_indices : List Int) :
    List (Int × Int × Int) × List (Nat × Nat × Nat) :=
  add_triangles_go face_indices face_counts 0

/-- Partition of the flattened per-corner index list into each polygon's own
vertex list, following the spec wording. -/
def face_slices : List Nat → List Int → List (List Int)
  | [], _ => []
  | n :: rest, idx => idx.take n :: face_slices rest (idx.drop n)

/-- Modelled from the spec: fan triangulation of one polygon given by its
own vertex list, triangle k formed from the first vertex, vertex k+1 and
vertex k+2, 0-indexed within the polygon. -/
def fan_poly_spec (poly : List Int) : List (Int × Int × Int) :=
  (List.range (poly.length - 2)).map (fun k =>
    (poly.getD 0 0, poly.getD (k + 1) 0, poly.getD (k + 2) 0))

/-- Running offsets: entry i is the sum of the counts of entries before i,
starting from the given accumulator. -/
def running_offsets : List Nat → Nat → List Nat
  | [], _ => []
  | n :: rest, acc => acc :: running_offsets rest (acc + n)

/-- Modelled from the spec: the loop-index triples of one polygon whose
corners occupy flattened corner positions off .. off+n-1: triangle k maps to
flattened loop indices (off, off+k+1, off+k+2). -/
def fan_poly_loops_spec (off : Nat) (n : Nat) : List (Nat × Nat × Nat) :=
  (List.range (n - 2)).map (fun k => (off, off + k + 1, off + k + 2))

/-- Modelled from the spec: full fan triangulation, each polygon taken over
its own vertex list and the results concatenated. -/
def fan_triangulation_spec (face_counts : List Nat) (face_indices : List Int) :
    List (Int × Int × Int) :=
  ((face_slices face_counts face_indices).map fan_poly_spec).flatten

/-- Modelled from the spec: the per-triangle loop-index triples, polygon i
starting at the running offset of the counts before it. -/
def fan_loops_spec (face_counts : List Nat) : List (Nat × Nat × Nat) :=
  (((running_offsets face_counts 0).zip face_counts).map
    (fun p => fan_poly_loops_spec p.1 p.2)).flatten

/-- Inner walk of the curves loader: for each curve, its declared number of
keys are read starting at the running offset, converted through
make_float3_from_yup, each key gets the constant placeholder radius 1/100,
and one first-key entry (the running offset) and one shader entry 0 are
recorded; returns (keys, radii, first keys, shaders). -/
def load_curve_sample_go (pos : List V3) :
    List Nat → Nat → List V3 × List ℚ × List Nat × List Nat
  | [], _ => ([], [], [], [])
  | n :: rest, offset =>
    let keys := (List.range n).map
      (fun j => make_float3_from_yup (pos.getD (offset + j) (0, 0, 0)))
    let radii := List.replicate n (1 / 100 : ℚ)
    let r := load_curve_sample_go pos rest (offset + n)
    (keys ++ r.1, radii ++ r.2.1, offset :: r.2.2.1, 0 :: r.2.2.2)

/-- Per-sample body of AlembicObject::load_all_data for curves. -/
def load_curve_sample (curves_num_vertices : List Nat) (positions : List V3) :
    List V3 × List ℚ × List Nat × List Nat :=
  load_curve_sample_go positions curves_num_vertices 0

/-- Modelled from the spec: curve keys as the concatenation of per-curve
blocks, curve i starting at its running offset and spanning its declared
vertex count. -/
def curve_blocks_spec (counts : List Nat) (pos : List V3) : List V3 :=
  (((running_offsets counts 0).zip counts).map (fun p =>
    (List.range p.2).map
      (fun j => make_float3_from_yup (pos.getD (p.1 + j) (0, 0, 0))))).flatten

/-- Raw attribute buffer contents (array of char in the source), whose
values come from external resampling and conversion routines. -/
abbrev AttrPayload := List ℚ

/-- CachedData's CachedAttribute, restricted to what the per-sample loop
touches: the attribute name and its time-keyed data channel. -/
structure CachedAttribute where
  name : String
  data : List (ℚ × AttrPayload)

/-- Accessors of an IPolyMeshSchema (and its side-channel property store) as
seen by load_all_data: sample count, per-index sample time, the per-sample
arrays (each possibly null), the requested attribute names collected from
the bound shaders, and, for each requested name and sample index, the
outcome of the external arbGeomParams lookup: the time recorded by that
parameter's own time sampling, and either the resampled buffer to append or
none when the property is absent, of an unhandled scope/type combination, or
its triangle data is missing (the silently-skipped cases). -/
structure MeshSchema where
  numSamples : Nat
  time : Nat → ℚ
  positions : Nat → Option (List V3)
  faceCounts : Nat → Option (List Nat)
  faceIndices : Nat → Option (List Int)
  requestedAttributes : List String
  attrTime : String → Nat → ℚ
  attrValue : String → Nat → Option AttrPayload

/-- The mesh cache channels populated by the per-sample loop: vertices,
triangles and triangle loop maps, each a list of time-keyed entries in
insertion order, plus the named attribute channels. -/
structure MeshCache where
  vertices : List (ℚ × List V3)
  triangles : List (ℚ × List (Int × Int × Int))
  triangles_loops : List (ℚ × List (Nat × Nat × Nat))
  attributes : List CachedAttribute

/-- The empty mesh cache. -/
def emptyMeshCache : MeshCache := ⟨[], [], [], []⟩

/-- Source add_positions: a null position array adds nothing; otherwise the
converted positions are recorded under the sample time. -/
def add_positions (positions : Option (List V3)) (time : ℚ) (c : MeshCache) :
    MeshCache :=
  match positions with
  | none => c
  | some ps =>
    { c with vertices := c.vertices ++ [(time, ps.map make_float3_from_yup)] }

/-- Cache-recording wrapper of add_triangles: a null face-count or
face-index array adds nothing; otherwise the triangle and loop arrays are
recorded under the sample time. -/
def add_triangles_data (face_counts : Option (List Nat))
    (face_indices : Option (List Int)) (time : ℚ) (c : MeshCache) : MeshCache :=
  match face_counts, face_indices with
  | some counts, some idx =>
    let r := add_triangles counts idx
    { c with
      triangles := c.triangles ++ [(time, r.1)],
      triangles_loops := c.triangles_loops ++ [(time, r.2)] }
  | _, _ => c

/-- CachedData::add_attribute: return the channel of the given name,
creating an empty one on first reference. -/
def add_attribute (name : String) (attrs : List CachedAttribute) :
    List CachedAttribute :=
  if attrs.any (fun a => a.name == name) then attrs else attrs ++ [⟨name, []⟩]

/-- TimeSampledDataBase add_data on the attribute channel of the given name:
append one time-keyed entry to the first channel with that name. -/
def attr_add_data (name : String) (entry : ℚ × AttrPayload) :
    List CachedAttribute → List CachedAttribute
  | [] => []
  | a :: rest =>
    if a.name == name then { a with data := a.data ++ [entry] } :: rest
    else a :: attr_add_data name entry rest

/-- Source AlembicObject::read_attribute for one requested name at one
sample index: the named channel is created on first reference, then the
arbGeomParams property list is scanned for the property of that name
(property names in a compound property are unique, so at most one matches)
and, when its scope/type combination is handled and its triangle data is
present, exactly one buffer is appended under that parameter's own sample
time; every unmatched combination is silently skipped.  The scan, dispatch
and buffer resampling are external and are summed up by the schema's
attrValue/attrTime oracles. -/
def read_attribute (schema : MeshSchema) (i : Nat) (name : String)
    (attrs : List CachedAttribute) : List CachedAttribute :=
  let attrs2 := add_attribute name attrs
  match schema.attrValue name i with
  | none => attrs2
  | some payload => attr_add_data name (schema.attrTime name i, payload) attrs2

/-- The foreach-requested-attribute part of the mesh per-sample loop body:
one read_attribute call per requested attribute name. -/
def load_mesh_attributes (schema : MeshSchema) (i : Nat) (c : MeshCache) :
    MeshCache :=
  let newAttrs := schema.requestedAttributes.foldl
    (fun acc nm => read_attribute schema i nm acc) c.attributes
  { c with attributes := newAttrs }

/-- Body of one iteration of the mesh per-sample load loop: add_positions,
add_triangles, then read_attribute for every requested attribute. -/
def load_mesh_sample (schema : MeshSchema) (i : Nat) (c : MeshCache) : MeshCache :=
  load_mesh_attributes schema i
    (add_triangles_data (schema.faceCounts i) (schema.faceIndices i) (schema.time i)
      (add_positions (schema.positions i) (schema.time i) c))

/-- Generic per-sample loop with cooperative cancellation: the flag is
polled before each index and the loop returns the state built so far once
the flag is observed. -/
def cancellable_loop {σ : Type} (step : Nat → σ → σ) (cancel : Nat → Bool) :
    List Nat → σ → σ
  | [], s => s
  | i :: rest, s =>
    if cancel i then s else cancellable_loop step cancel rest (step i s)

/-- Per-sample loop of AlembicObject::load_all_data for meshes. -/
def load_all_data_mesh (schema : MeshSchema) (cancel : Nat → Bool) : MeshCache :=
  cancellable_loop (load_mesh_sample schema) cancel
    (List.range schema.numSamples) emptyMeshCache

/-- The mesh cache after processing exactly the first k samples with no
cancellation. -/
def load_mesh_first (schema : MeshSchema) (k : Nat) : MeshCache :=
  List.foldl (fun c i => load_mesh_sample schema i c) emptyMeshCache (List.range k)

/-- Accessors of an ICurvesSchema as seen by load_all_data. -/
structure CurveSchema where
  numSamples : Nat
  time : Nat → ℚ
  curvesNumVertices : Nat → List Nat
  positions : Nat → List V3

/-- The four curve cache channels populated by the per-sample loop. -/
structure CurveCache where
  curve_keys : List (ℚ × List V3)
  curve_radius : List (ℚ × List ℚ)
  curve_first_key : List (ℚ × List Nat)
  curve_shader : List (ℚ × List Nat)

/-- The empty curve cache. -/
def emptyCurveCache : CurveCache := ⟨[], [], [], []⟩

/-- Body of one iteration of the curve per-sample load loop. -/
def load_curve_step (schema : CurveSchema) (i : Nat) (c : CurveCache) : CurveCache :=
  let r := load_curve_sample (schema.curvesNumVertices i) (schema.positions i)
  { curve_keys := c.curve_keys ++ [(schema.time i, r.1)],
    curve_radius := c.curve_radius ++ [(schema.time i, r.2.1)],
    curve_first_key := c.curve_first_key ++ [(schema.time i, r.2.2.1)],
    curve_shader := c.curve_shader ++ [(schema.time i, r.2.2.2)] }

/-- Per-sample loop of AlembicObject::load_all_data for curves. -/
def load_all_data_curves (schema : CurveSchema) (cancel : Nat → Bool) : CurveCache :=
  cancellable_loop (load_curve_step schema) cancel
    (List.range schema.numSamples) emptyCurveCache

/-- The curve cache after processing exactly the first k samples with no
cancellation. -/
def load_curves_first (schema : CurveSchema) (k : Nat) : CurveCache :=
  List.foldl (fun c i => load_curve_step schema i c) emptyCurveCache (List.range k)

/-- State of the procedural driver visible to AlembicProcedural::generate:
the configured file path, the node modified flag (the socket system marks
the node modified whenever a socket such as the file path is set, per the
spec), whether the archive handle is valid, and whether objects were
loaded. -/
structure ProcState where
  filepath : String
  modified : Bool
  archive_valid : Bool
  objects_loaded : Bool

/-- Source AlembicProcedural::generate as a state transition: return
unchanged when not modified; otherwise lazily open the archive, and on
failure clear the file path and the modified flag and return without
loading; on success (or an already-valid archive) load objects once and
proceed to per-object materialization (abstracted), clearing the modified
flag.  Result: (new state, attempted an archive open, reached object
processing). -/
def generate (open_ok : String → Bool) (s : ProcState) : ProcState × Bool × Bool :=
  if s.modified = false then (s, false, false)
  else if s.archive_valid = false then
    if open_ok s.filepath then
      ({ s with archive_valid := true, objects_loaded := true, modified := false },
        true, true)
    else
      ({ s with filepath := "", modified := false }, true, false)
  else
    ({ s with objects_loaded := true, modified := false }, false, true)

/-- A sequence of generate invocations with the per-invocation outcome of
the external archive-open call; returns the final state and whether any
invocation attempted an archive open. -/
def generate_seq (oks : List (String → Bool)) (s : ProcState) : ProcState × Bool :=
  match oks with
  | [] => (s, false)
  | ok :: rest =>
    let r := generate ok s
    let r2 := generate_seq rest r.1
    (r2.1, r.2.1 || r2.2)

/-- Concrete operation bundle over rationals used to evaluate the abstract
interpolation pipeline on concrete inputs. -/
def demoOps : ImathOps ℚ ℚ ℚ where
  decompose m := (m, m, m, m)
  compose s sh r t := s * sh * r * t
  vlerp a b t := a + (b - a) * t
  qslerp a b t := a + (b - a) * t
  qdot a b := a * b
  qneg a := -a
  mmul a b := a * b
  identity := 1

/-- An archive-open outcome that always fails. -/
def openAlwaysFails : String → Bool := fun _ => false

/-- An archive-open outcome that always succeeds. -/
def openAlwaysSucceeds : String → Bool := fun _ => true

/-- A driver state with a bad path, marked modified, archive not yet open. -/
def badPathState : ProcState :=
  { filepath := "bad.abc", modified := true, archive_valid := false,
    objects_loaded := false }

/-- A concrete mesh schema with three samples. -/
def demoMeshSchema : MeshSchema where
  numSamples := 3
  time i := i
  positions _ := some [(1, 2, 3)]
  faceCounts _ := some [3]
  faceIndices _ := some [0, 1, 2]
  requestedAttributes := ["uv"]
  attrTime _ i := i
  attrValue _ _ := some [1, 2]

/-- A concrete curve schema with three samples. -/
def demoCurveSchema : CurveSchema where
  numSamples := 3
  time i := i
  curvesNumVertices _ := [2]
  positions _ := [(1, 2, 3), (4, 5, 6)]

/-- A cancellation flag first observed at poll point 1. -/
def demoCancel : Nat → Bool := fun i => 1 ≤ i

/-- C6: every ingested position/normal vector (x, y, z) is remapped to
(x, -z, y); convert_yup_zup applies the same remap to the decomposed
rotation and translation before recomposition and the no-negation remap
(x, z, y) to the decomposed scale; the position remap composed with its
inverse remap is the identity in both directions. -/
theorem up_axis_conversion {M : Type} (ops : YupOps M) (mtx : M) (x y z : ℚ) :
    make_float3_from_yup (x, y, z) = (x, -z, y)
    ∧ convert_yup_zup ops mtx =
        ops.mmul
          (ops.mmul
            (ops.scaleMat ((ops.extractSHRT mtx).1.1, (ops.extractSHRT mtx).1.2.2,
              (ops.extractSHRT mtx).1.2.1))
            (ops.eulerMat (make_float3_from_yup (ops.extractSHRT mtx).2.2.1)))
          (ops.transMat (make_float3_from_yup (ops.extractSHRT mtx).2.2.2))
    ∧ make_yup_from_zup (make_float3_from_yup (x, y, z)) = (x, y, z)
    ∧ make_float3_from_yup (make_yup_from_zup (x, y, z)) = (x, y, z) := by
  refine ⟨rfl, rfl, ?_, ?_⟩ <;>
    simp [make_float3_from_yup, make_yup_from_zup]

/-- C10: interpolation over the empty sample map returns the identity matrix
for every query time, and the exact-match lookup returns the identity matrix
whenever no entry exists at the queried time. -/
theorem empty_map_gives_identity {M V Q : Type} (ops : ImathOps M V Q)
    (samples : SampleMap M) (time : ℚ) :
    get_interpolated_matrix_for_time ops ([] : SampleMap M) time = ops.identity
    ∧ (sm_find samples time = none →
        get_matrix_for_time ops samples time = ops.identity) := by
  constructor
  · rfl
  · intro h
    simp [get_matrix_for_time, h]

/-- Concrete instance of empty_map_gives_identity: the empty map interpolates
to the identity and a missing key looks up to the identity. -/
theorem empty_map_gives_identity_witness :
    get_interpolated_matrix_for_time demoOps ([] : SampleMap ℚ) 3 = 1
    ∧ get_matrix_for_time demoOps [((0 : ℚ), (5 : ℚ))] 7 = 1 := by
  exact ⟨(empty_map_gives_identity demoOps ([(0, 5)] : SampleMap ℚ) 3).1,
    (empty_map_gives_identity demoOps ([(0, 5)] : SampleMap ℚ) 7).2 (by decide)⟩

/-- C1 (failing input): on the sample map with keys 0, 1, 2 and query time
1/2, the bracketing loop selects (0, 2): next_time stays at the largest key
even though key 1 is a key at least the query time and below 2, so the
interpolation blends the samples at keys 0 and 2 with parameter 1/4 (here
giving (11/4)^4 under the concrete operation bundle) instead of blending the
tightest bracketing samples at keys 0 and 1 with parameter 1/2 (which would
give (5/2)^4). -/
theorem interpolation_skips_tightest_bracket :
    find_bracket_times [0, 1, 2] (1 / 2) = (0, 2)
    ∧ ((1 : ℚ) ∈ [(0 : ℚ), 1, 2] ∧ (1 / 2 : ℚ) ≤ 1 ∧ (1 : ℚ) < 2)
    ∧ get_interpolated_matrix_for_time demoOps [(0, 2), (1, 3), (2, 5)] (1 / 2)
        = 14641 / 256
    ∧ demoOps.compose (demoOps.vlerp 2 3 (1 / 2)) (demoOps.vlerp 2 3 (1 / 2))
        (demoOps.qslerp 2 3 (1 / 2)) (demoOps.vlerp 2 3 (1 / 2)) = 625 / 16
    ∧ (14641 / 256 : ℚ) ≠ 625 / 16 := by
  refine ⟨?_, ?_, ?_, ?_, ?_⟩
  · simp only [find_bracket_times, List.foldl, bracket_step, List.headD, List.getLastD]
    norm_num
  · norm_num
  · simp only [get_interpolated_matrix_for_time, sm_find, sm_keys, List.map,
      find_bracket_times, List.foldl, bracket_step, List.headD, List.getLastD,
      get_matrix_for_time, demoOps, List.length, List.getLast]
    norm_num
  · simp only [demoOps]
    norm_num
  · norm_num

/-- C2 (failing input): setup_transform_cache on two bit-identical identity
samples at times 0 and 1 keeps both samples under their own keys instead of
collapsing to a single sample at time 0, because the animation check
compares each sample matrix against a matrix filled with the first sample's
time key rather than against the first sample's matrix; the empty-input
branch does emit the single identity sample at time 0. -/
theorem setup_transform_cache_keeps_identical_samples (T : Type)
    (yops : YupOps M44d) (cast : M44d → T) (tfid : T) :
    (setup_transform_cache yops cast tfid
        [(0, m44_identity), (1, m44_identity)]).map Prod.fst = [0, 1]
    ∧ setup_transform_cache yops cast tfid ([] : SampleMap M44d) = [(0, tfid)] := by
  constructor
  · have hne : ([(0, m44_identity), (1, m44_identity)] : SampleMap M44d).any
        (fun pair => pair.2 != m44_fill 0) = true := by decide
    simp [setup_transform_cache, hne]
  · rfl

theorem sm_find_mem {M : Type} :
    ∀ {s : SampleMap M} {t : ℚ} {m : M}, sm_find s t = some m → (t, m) ∈ s := by
  intro s
  induction s with
  | nil => intro t m h; simp [sm_find] at h
  | cons p rest ih =>
    intro t m h
    obtain ⟨a, b⟩ := p
    simp only [sm_find] at h
    by_cases hp : a = t
    · subst hp
      simp at h
      subst h
      exact List.mem_cons_self _ _
    · simp only [if_neg hp] at h
      exact List.mem_cons_of_mem _ (ih h)

theorem mem_sm_keys_of_mem {M : Type} {s : SampleMap M} {t : ℚ} {m : M}
    (h : (t, m) ∈ s) : t ∈ sm_keys s :=
  List.mem_map_of_mem Prod.fst h

theorem sm_find_of_mem {M : Type} :
    ∀ {s : SampleMap M} {t : ℚ} {m : M},
      (sm_keys s).Nodup → (t, m) ∈ s → sm_find s t = some m := by
  intro s
  induction s with
  | nil => intro t m _ h; simp at h
  | cons p rest ih =>
    intro t m hnd h
    obtain ⟨a, b⟩ := p
    simp only [sm_keys, List.map_cons, List.nodup_cons] at hnd
    rcases List.mem_cons.mp h with heq | hmem
    · have ha : t = a := congrArg Prod.fst heq
      have hb : m = b := congrArg Prod.snd heq
      subst ha
      subst hb
      simp [sm_find]
    · have hat : a ≠ t := by
        intro hat
        subst hat
        exact hnd.1 (mem_sm_keys_of_mem hmem)
      simpa [sm_find, hat] using ih hnd.2 hmem

theorem sm_mem_unique {M : Type} {s : SampleMap M} {t : ℚ} {m m2 : M}
    (hnd : (sm_keys s).Nodup) (h1 : (t, m) ∈ s) (h2 : (t, m2) ∈ s) : m = m2 := by
  have e1 := sm_find_of_mem hnd h1
  have e2 := sm_find_of_mem hnd h2
  rw [e1] at e2
  exact Option.some.inj e2

theorem sm_sorted_cons_lt {M : Type} {p : ℚ × M} {rest : SampleMap M}
    (hs : sm_sorted (p :: rest)) : ∀ k ∈ sm_keys rest, p.1 < k := by
  have hs2 : (p.1 :: sm_keys rest).Sorted (· < ·) := hs
  exact (List.sorted_cons.mp hs2).1

theorem sm_sorted_tail {M : Type} {p : ℚ × M} {rest : SampleMap M}
    (hs : sm_sorted (p :: rest)) : sm_sorted rest := by
  have hs2 : (p.1 :: sm_keys rest).Sorted (· < ·) := hs
  exact (List.sorted_cons.mp hs2).2

theorem sm_sorted_nodup {M : Type} {s : SampleMap M} (hs : sm_sorted s) :
    (sm_keys s).Nodup :=
  List.Sorted.nodup hs

theorem sorted_le_getLast {M : Type} :
    ∀ {s : SampleMap M} (hne : s ≠ []), sm_sorted s →
      ∀ {t : ℚ} {m : M}, (t, m) ∈ s → t ≤ (s.getLast hne).1 := by
  intro s
  induction s with
  | nil => intro hne; exact absurd rfl hne
  | cons p rest ih =>
    intro hne hs t m hmem
    match rest, hs, hmem, ih with
    | [], _, hmem, _ =>
      have : (t, m) = p := by simpa using hmem
      simp [← this]
    | q :: rest2, hs, hmem, ih =>
      rw [List.getLast_cons (List.cons_ne_nil q rest2)]
      rcases List.mem_cons.mp hmem with heq | hmem2
      · have ht : t = p.1 := congrArg Prod.fst heq
        subst ht
        have hlmem : ((q :: rest2).getLast (List.cons_ne_nil q rest2)) ∈ q :: rest2 :=
          List.getLast_mem _
        have hkey : ((q :: rest2).getLast (List.cons_ne_nil q rest2)).1 ∈
            sm_keys (q :: rest2) :=
          List.mem_map_of_mem Prod.fst hlmem
        exact le_of_lt (sm_sorted_cons_lt hs _ hkey)
      · exact ih (List.cons_ne_nil q rest2) (sm_sorted_tail hs) hmem2

/-- C5: on a non-empty sorted sample map, interpolation returns the stored
sample verbatim on an exact key match, returns the unique sample of a
singleton map for every time, and clamps to the first (minimum-key) sample
for times at or below the minimum key and to the last (maximum-key) sample
for times at or above the maximum key. -/
theorem interpolation_boundary_behavior {M V Q : Type} (ops : ImathOps M V Q)
    (first : ℚ × M) (rest : SampleMap M) (hs : sm_sorted (first :: rest)) :
    (∀ t m, sm_find (first :: rest) t = some m →
      get_interpolated_matrix_for_time ops (first :: rest) t = m)
    ∧ (rest = [] → ∀ t,
        get_interpolated_matrix_for_time ops (first :: rest) t = first.2)
    ∧ (∀ t, t ≤ first.1 →
        get_interpolated_matrix_for_time ops (first :: rest) t = first.2)
    ∧ (∀ t, ((first :: rest).getLast (List.cons_ne_nil first rest)).1 ≤ t →
        get_interpolated_matrix_for_time ops (first :: rest) t =
          ((first :: rest).getLast (List.cons_ne_nil first rest)).2) := by
  have hexact : ∀ t m, sm_find (first :: rest) t = some m →
      get_interpolated_matrix_for_time ops (first :: rest) t = m := by
    intro t m h
    simp only [get_interpolated_matrix_for_time, h]
  refine ⟨hexact, ?_, ?_, ?_⟩
  · rintro rfl t
    cases hfind : sm_find [first] t with
    | some m =>
      have hmem : (t, m) ∈ [first] := sm_find_mem hfind
      have : (t, m) = first := by simpa using hmem
      rw [hexact t m hfind, ← this]
    | none =>
      simp [get_interpolated_matrix_for_time, hfind]
  · intro t ht
    cases hfind : sm_find (first :: rest) t with
    | some m =>
      rcases List.mem_cons.mp (sm_find_mem hfind) with heq | hmem
      · rw [hexact t m hfind, ← heq]
      · exact absurd ht (not_le.mpr (sm_sorted_cons_lt hs t (mem_sm_keys_of_mem hmem)))
    | none =>
      simp only [get_interpolated_matrix_for_time, hfind]
      by_cases h1 : rest.length = 0
      · rw [if_pos h1]
      · rw [if_neg h1, if_pos ht]
  · intro t ht
    cases hfind : sm_find (first :: rest) t with
    | some m =>
      have hmem := sm_find_mem hfind
      have hle := sorted_le_getLast (List.cons_ne_nil first rest) hs hmem
      have hteq : t = ((first :: rest).getLast (List.cons_ne_nil first rest)).1 :=
        le_antisymm hle ht
      have hlastmem : ((first :: rest).getLast (List.cons_ne_nil first rest)) ∈
          first :: rest := List.getLast_mem _
      have hlp : (t, ((first :: rest).getLast (List.cons_ne_nil first rest)).2) ∈
          first :: rest := by
        rw [hteq, Prod.mk.eta]
        exact hlastmem
      have hm : m = ((first :: rest).getLast (List.cons_ne_nil first rest)).2 :=
        sm_mem_unique (sm_sorted_nodup hs) hmem hlp
      rw [hexact t m hfind, hm]
    | none =>
      simp only [get_interpolated_matrix_for_time, hfind]
      by_cases h1 : rest.length = 0
      · have hrest : rest = [] := List.length_eq_zero.mp h1
        subst hrest
        rw [if_pos h1]
        rfl
      · have hne2 : rest ≠ [] := by
          intro hr
          exact h1 (by simp [hr])
        have h2 : ¬ t ≤ first.1 := by
          cases hrest : rest with
          | nil => exact absurd hrest hne2
          | cons q rest2 =>
            subst hrest
            have hlmem : ((q :: rest2).getLast (List.cons_ne_nil q rest2)) ∈
                q :: rest2 := List.getLast_mem _
            have hkey : ((q :: rest2).getLast (List.cons_ne_nil q rest2)).1 ∈
                sm_keys (q :: rest2) :=
              List.mem_map_of_mem Prod.fst hlmem
            have hlt := sm_sorted_cons_lt hs _ hkey
            rw [List.getLast_cons (List.cons_ne_nil q rest2)] at ht
            intro hcon
            exact absurd (le_trans ht hcon) (not_le.mpr hlt)
        rw [if_neg h1, if_neg h2, if_pos ht]

/-- Concrete instance of interpolation_boundary_behavior on the two-sample
map with keys 0 and 1: an exact match at key 1, a query below the minimum
key and a query above the maximum key. -/
theorem interpolation_boundary_behavior_witness :
    get_interpolated_matrix_for_time demoOps [((0 : ℚ), (5 : ℚ)), (1, 7)] 1 = 7
    ∧ get_interpolated_matrix_for_time demoOps [((0 : ℚ), (5 : ℚ)), (1, 7)] (-3) = 5
    ∧ get_interpolated_matrix_for_time demoOps [((0 : ℚ), (5 : ℚ)), (1, 7)] 2 = 7 := by
  have h := interpolation_boundary_behavior demoOps ((0 : ℚ), (5 : ℚ)) [(1, 7)]
    (by simp [sm_sorted, sm_keys])
  exact ⟨h.1 1 7 (by decide), h.2.2.1 (-3) (by norm_num), h.2.2.2 2 (by decide)⟩

theorem mem_set_insert {x a : ℚ} :
    ∀ {l : List ℚ}, a ∈ set_insert x l ↔ a = x ∨ a ∈ l := by
  intro l
  induction l with
  | nil => simp [set_insert]
  | cons y rest ih =>
    simp only [set_insert]
    by_cases h1 : x < y
    · rw [if_pos h1]
      simp [List.mem_cons]
    · rw [if_neg h1]
      by_cases h2 : x = y
      · rw [if_pos h2]
        subst h2
        simp [List.mem_cons]
      · rw [if_neg h2]
        simp only [List.mem_cons, ih]
        tauto

theorem mem_foldl_set_insert :
    ∀ (l acc : List ℚ) (a : ℚ),
      a ∈ l.foldl (fun acc t => set_insert t acc) acc ↔ a ∈ acc ∨ a ∈ l := by
  intro l
  induction l with
  | nil => intro acc a; simp
  | cons x rest ih =>
    intro acc a
    simp only [List.foldl_cons]
    rw [ih]
    simp only [mem_set_insert, List.mem_cons]
    tauto

theorem mem_sample_union {M : Type} (ps ls : SampleMap M) (a : ℚ) :
    a ∈ sample_union ps ls ↔ a ∈ sm_keys ps ∨ a ∈ sm_keys ls := by
  unfold sample_union
  rw [mem_foldl_set_insert]
  simp

theorem sm_find_map_self {M : Type} (v : ℚ → M) :
    ∀ {l : List ℚ} {t : ℚ}, t ∈ l →
      sm_find (l.map (fun x => (x, v x))) t = some (v t) := by
  intro l
  induction l with
  | nil => intro t h; simp at h
  | cons x rest ih =>
    intro t h
    simp only [List.map_cons, sm_find]
    by_cases hx : x = t
    · subst hx
      simp
    · rw [if_neg hx]
      rcases List.mem_cons.mp h with heq | hmem
      · exact absurd heq.symm hx
      · exact ih hmem

/-- C4: the key set of concatenate_xform_samples is exactly the union of the
two input key sets, and at every unified time the stored matrix is
interpolate(local, t) * interpolate(parent, t), local-then-parent. -/
theorem concatenate_union_and_compose {M V Q : Type} (ops : ImathOps M V Q)
    (parent_samples local_samples : SampleMap M) :
    (∀ t, t ∈ sm_keys (concatenate_xform_samples ops parent_samples local_samples) ↔
      t ∈ sm_keys parent_samples ∨ t ∈ sm_keys local_samples)
    ∧ (∀ t ∈ sample_union parent_samples local_samples,
        sm_find (concatenate_xform_samples ops parent_samples local_samples) t =
          some (ops.mmul (get_interpolated_matrix_for_time ops local_samples t)
            (get_interpolated_matrix_for_time ops parent_samples t))) := by
  constructor
  · intro t
    have hkeys : sm_keys (concatenate_xform_samples ops parent_samples local_samples)
        = sample_union parent_samples local_samples := by
      simp [concatenate_xform_samples, sm_keys, List.map_map, Function.comp_def]
    rw [hkeys, mem_sample_union]
  · intro t ht
    exact sm_find_map_self
      (fun time => ops.mmul (get_interpolated_matrix_for_time ops local_samples time)
        (get_interpolated_matrix_for_time ops parent_samples time)) ht

/-- Concrete instance of concatenate_union_and_compose: parent sampled at
time 0 with matrix 2, local sampled at time 1 with matrix 3; time 1 is in
the union and the concatenated entry there is 3 * 2 = 6. -/
theorem concatenate_union_and_compose_witness :
    (1 : ℚ) ∈ sample_union ([((0 : ℚ), (2 : ℚ))] : SampleMap ℚ) [((1 : ℚ), (3 : ℚ))]
    ∧ sm_find (concatenate_xform_samples demoOps [((0 : ℚ), (2 : ℚ))]
        [((1 : ℚ), (3 : ℚ))]) 1 = some 6 := by
  have hmem : (1 : ℚ) ∈ sample_union ([((0 : ℚ), (2 : ℚ))] : SampleMap ℚ)
      [((1 : ℚ), (3 : ℚ))] := by decide
  refine ⟨hmem, ?_⟩
  have h := (concatenate_union_and_compose demoOps [((0 : ℚ), (2 : ℚ))]
    [((1 : ℚ), (3 : ℚ))]).2 1 hmem
  rw [h]
  simp only [get_interpolated_matrix_for_time, sm_find, demoOps]
  norm_num

theorem getD_take {α : Type _} (l : List α) {n i : Nat} (h : i < n) (d : α) :
    (l.take n).getD i d = l.getD i d := by
  simp [List.getD_eq_getElem?_getD, List.getElem?_take, h]

theorem getD_drop {α : Type _} (l : List α) (o i : Nat) (d : α) :
    (l.drop o).getD i d = l.getD (o + i) d := by
  simp [List.getD_eq_getElem?_getD, List.getElem?_drop]

theorem getD_slice {α : Type _} (l : List α) {o n i : Nat} (h : i < n) (d : α) :
    ((l.drop o).take n).getD i d = l.getD (o + i) d := by
  rw [getD_take _ h, getD_drop]

theorem fan_face_eq_spec (idx : List Int) (off n : Nat) (h : off + n ≤ idx.length) :
    fan_face_triangles idx off n = fan_poly_spec ((idx.drop off).take n) := by
  have hlen : ((idx.drop off).take n).length = n := by
    simp only [List.length_take, List.length_drop]
    omega
  unfold fan_face_triangles fan_poly_spec
  rw [hlen]
  apply List.map_congr_left
  intro j hj
  have hj2 : j < n - 2 := List.mem_range.mp hj
  have h0 : 0 < n := by omega
  have h1 : j + 1 < n := by omega
  have h2 : j + 2 < n := by omega
  rw [getD_slice _ h0, getD_slice _ h1, getD_slice _ h2]
  simp [Nat.add_assoc]

theorem add_triangles_go_eq (idx : List Int) :
    ∀ (counts : List Nat) (off : Nat), off + counts.sum ≤ idx.length →
      (add_triangles_go idx counts off).1 =
        ((face_slices counts (idx.drop off)).map fan_poly_spec).flatten
      ∧ (add_triangles_go idx counts off).2 =
        (((running_offsets counts off).zip counts).map
          (fun p => fan_poly_loops_spec p.1 p.2)).flatten := by
  intro counts
  induction counts with
  | nil => intro off h; simp [add_triangles_go, face_slices, running_offsets]
  | cons n rest ih =>
    intro off h
    have hrec : (off + n) + rest.sum ≤ idx.length := by
      simp only [List.sum_cons] at h
      omega
    obtain ⟨ih1, ih2⟩ := ih (off + n) hrec
    have hdrop : (idx.drop off).drop n = idx.drop (off + n) := by
      rw [List.drop_drop, Nat.add_comm]
    constructor
    · simp only [add_triangles_go, face_slices, List.map_cons, List.flatten_cons]
      rw [hdrop, ih1]
      congr 1
      exact fan_face_eq_spec idx off n (by simp only [List.sum_cons] at h; omega)
    · simp only [add_triangles_go, running_offsets, List.zip_cons_cons,
        List.map_cons, List.flatten_cons]
      rw [ih2]
      rfl

theorem add_triangles_go_length (idx : List Int) :
    ∀ (counts : List Nat) (off : Nat),
      (add_triangles_go idx counts off).1.length =
        (counts.map (fun n => n - 2)).sum := by
  intro counts
  induction counts with
  | nil => intro off; simp [add_triangles_go]
  | cons n rest ih =>
    intro off
    simp [add_triangles_go, fan_face_triangles, ih (off + n)]

/-- C3: add_triangles fan-triangulates every face over its own vertex list
(triangle k of an N-vertex polygon is its first vertex with vertices k+1 and
k+2), producing N-2 triangles per polygon and recording the parallel
loop-index triple mapping each triangle corner to its flattened per-corner
index; in particular the quad [0,1,2,3] yields triangles (0,1,2), (0,2,3)
with loop triples (0,1,2), (0,2,3). -/
theorem fan_triangulation (counts : List Nat) (idx : List Int)
    (_hN : ∀ n ∈ counts, 3 ≤ n) (hlen : counts.sum ≤ idx.length) :
    (add_triangles counts idx).1 = fan_triangulation_spec counts idx
    ∧ (add_triangles counts idx).2 = fan_loops_spec counts
    ∧ (add_triangles counts idx).1.length = (counts.map (fun n => n - 2)).sum
    ∧ add_triangles [4] [0, 1, 2, 3] =
        ([(0, 1, 2), (0, 2, 3)], [(0, 1, 2), (0, 2, 3)]) := by
  have h := add_triangles_go_eq idx counts 0 (by omega)
  refine ⟨?_, ?_, add_triangles_go_length idx counts 0, by decide⟩
  · simpa [add_triangles, fan_triangulation_spec, List.drop_zero] using h.1
  · simpa [add_triangles, fan_loops_spec] using h.2

/-- Concrete instance of fan_triangulation: the quad face [0,1,2,3]. -/
theorem fan_triangulation_witness :
    add_triangles [4] [0, 1, 2, 3] = ([(0, 1, 2), (0, 2, 3)], [(0, 1, 2), (0, 2, 3)]) :=
  (fan_triangulation [4] [0, 1, 2, 3] (by decide) (by decide)).2.2.2

theorem load_curve_sample_go_eq (pos : List V3) :
    ∀ (counts : List Nat) (off : Nat),
      load_curve_sample_go pos counts off =
        ((((running_offsets counts off).zip counts).map (fun p =>
            (List.range p.2).map
              (fun j => make_float3_from_yup (pos.getD (p.1 + j) (0, 0, 0))))).flatten,
         List.replicate counts.sum (1 / 100 : ℚ),
         running_offsets counts off,
         List.replicate counts.length 0) := by
  intro counts
  induction counts with
  | nil => intro off; simp [load_curve_sample_go, running_offsets]
  | cons n rest ih =>
    intro off
    simp only [load_curve_sample_go, running_offsets, List.zip_cons_cons,
      List.map_cons, List.flatten_cons, List.sum_cons, List.length_cons,
      ih (off + n), List.replicate_succ, ← List.replicate_add]

theorem load_curve_keys_length (pos : List V3) :
    ∀ (counts : List Nat) (off : Nat),
      (load_curve_sample_go pos counts off).1.length = counts.sum := by
  intro counts
  induction counts with
  | nil => intro off; simp [load_curve_sample_go]
  | cons n rest ih =>
    intro off
    simp [load_curve_sample_go, ih (off + n)]

/-- C7: the curve loader walks the per-curve vertex-count array and the flat
position array in lockstep: the key list is the concatenation of per-curve
blocks, curve i starting at the running offset (sum of previous counts) and
spanning its declared count, with each position converted through
make_float3_from_yup; every key receives the constant placeholder radius
1/100; and exactly one first-key entry (the running offset) and one shader
entry 0 are recorded per curve. -/
theorem curve_lockstep (counts : List Nat) (pos : List V3) :
    (load_curve_sample counts pos).1 = curve_blocks_spec counts pos
    ∧ (load_curve_sample counts pos).2.1 = List.replicate counts.sum (1 / 100 : ℚ)
    ∧ (load_curve_sample counts pos).2.2.1 = running_offsets counts 0
    ∧ (load_curve_sample counts pos).2.2.2 = List.replicate counts.length 0
    ∧ (load_curve_sample counts pos).1.length = counts.sum := by
  have h := load_curve_sample_go_eq pos counts 0
  refine ⟨?_, ?_, ?_, ?_, load_curve_keys_length pos counts 0⟩ <;>
    simp [load_curve_sample, curve_blocks_spec, h]

theorem generate_not_modified (ok : String → Bool) (s : ProcState)
    (h : s.modified = false) : generate ok s = (s, false, false) := by
  simp [generate, h]

theorem generate_seq_not_modified (s : ProcState) (h : s.modified = false) :
    ∀ oks, generate_seq oks s = (s, false) := by
  intro oks
  induction oks with
  | nil => rfl
  | cons ok rest ih =>
    simp [generate_seq, generate_not_modified ok s h, ih]

/-- C8: when the archive open fails on a modified driver state, generate
clears the configured path and the modified flag and returns without
loading any objects; thereafter every invocation, under any open outcomes,
leaves the state unchanged and performs no archive-open attempt (an attempt
would require the modified flag, which only setting the path again
raises). -/
theorem archive_open_failure (open_ok : String → Bool) (s : ProcState)
    (hm : s.modified = true) (hv : s.archive_valid = false)
    (hfail : open_ok s.filepath = false) :
    (generate open_ok s).1.filepath = ""
    ∧ (generate open_ok s).2.2 = false
    ∧ (generate open_ok s).1.objects_loaded = s.objects_loaded
    ∧ (generate open_ok s).1.modified = false
    ∧ ∀ oks, generate_seq oks (generate open_ok s).1 =
        ((generate open_ok s).1, false) := by
  have hgen : generate open_ok s =
      ({ s with filepath := "", modified := false }, true, false) := by
    simp [generate, hm, hv, hfail]
  rw [hgen]
  exact ⟨rfl, rfl, rfl, rfl, generate_seq_not_modified _ rfl⟩

/-- Concrete instance of archive_open_failure: a failed open clears the bad
path and two further invocations, even against an archive that would now
open, attempt nothing and change nothing. -/
theorem archive_open_failure_witness :
    (generate openAlwaysFails badPathState).1.filepath = ""
    ∧ generate_seq [openAlwaysSucceeds, openAlwaysSucceeds]
        (generate openAlwaysFails badPathState).1 =
      ((generate openAlwaysFails badPathState).1, false) := by
  have h := archive_open_failure openAlwaysFails badPathState rfl rfl rfl
  exact ⟨h.1, h.2.2.2.2 [openAlwaysSucceeds, openAlwaysSucceeds]⟩

theorem cancellable_loop_append {σ : Type _} (step : Nat → σ → σ)
    (cancel : Nat → Bool) :
    ∀ (l1 l2 : List Nat) (s : σ), (∀ i ∈ l1, cancel i = false) →
      cancellable_loop step cancel (l1 ++ l2) s =
        cancellable_loop step cancel l2 (List.foldl (fun c i => step i c) s l1) := by
  intro l1
  induction l1 with
  | nil => intro l2 s _; rfl
  | cons i rest ih =>
    intro l2 s h
    have hi : cancel i = false := h i (List.mem_cons_self i rest)
    simp only [List.cons_append, cancellable_loop, hi, List.foldl_cons,
      Bool.false_eq_true, if_false]
    exact ih l2 (step i s) (fun j hj => h j (List.mem_cons_of_mem _ hj))

theorem range_split {n k : Nat} (h : k < n) :
    ∃ l2, List.range n = List.range k ++ k :: l2 := by
  refine ⟨(List.range (n - k - 1)).map (fun j => k + (j + 1)), ?_⟩
  have h1 : n = k + ((n - k - 1) + 1) := by omega
  rw [h1, List.range_add, List.range_succ_eq_map]
  simp [List.map_map, Function.comp_def, Nat.succ_eq_add_one]

theorem cancellable_loop_first_cancel {σ : Type _} (step : Nat → σ → σ)
    (cancel : Nat → Bool) {n k : Nat} (s : σ) (hk : k < n) (hc : cancel k = true)
    (hf : ∀ j, j < k → cancel j = false) :
    cancellable_loop step cancel (List.range n) s =
      List.foldl (fun c i => step i c) s (List.range k) := by
  obtain ⟨l2, hsplit⟩ := range_split hk
  rw [hsplit, cancellable_loop_append step cancel (List.range k) (k :: l2) s
    (fun j hj => hf j (List.mem_range.mp hj))]
  simp [cancellable_loop, hc]

theorem load_mesh_sample_len (schema : MeshSchema) (i : Nat) (c : MeshCache) :
    (load_mesh_sample schema i c).vertices.length ≤ c.vertices.length + 1
    ∧ (load_mesh_sample schema i c).triangles.length ≤ c.triangles.length + 1
    ∧ (load_mesh_sample schema i c).triangles_loops.length ≤
        c.triangles_loops.length + 1 := by
  unfold load_mesh_sample load_mesh_attributes add_positions add_triangles_data
  cases schema.positions i <;> cases schema.faceCounts i <;>
    cases schema.faceIndices i <;> simp

theorem foldl_mesh_len (schema : MeshSchema) :
    ∀ (l : List Nat) (c : MeshCache),
      (List.foldl (fun c i => load_mesh_sample schema i c) c l).vertices.length ≤
        c.vertices.length + l.length
      ∧ (List.foldl (fun c i => load_mesh_sample schema i c) c l).triangles.length ≤
        c.triangles.length + l.length
      ∧ (List.foldl (fun c i => load_mesh_sample schema i c) c l).triangles_loops.length ≤
        c.triangles_loops.length + l.length := by
  intro l
  induction l with
  | nil => intro c; simp
  | cons i rest ih =>
    intro c
    obtain ⟨a1, a2, a3⟩ := load_mesh_sample_len schema i c
    obtain ⟨b1, b2, b3⟩ := ih (load_mesh_sample schema i c)
    simp only [List.foldl_cons, List.length_cons]
    exact ⟨by omega, by omega, by omega⟩

theorem load_curve_step_len (schema : CurveSchema) (i : Nat) (c : CurveCache) :
    (load_curve_step schema i c).curve_keys.length = c.curve_keys.length + 1
    ∧ (load_curve_step schema i c).curve_radius.length = c.curve_radius.length + 1
    ∧ (load_curve_step schema i c).curve_first_key.length = c.curve_first_key.length + 1
    ∧ (load_curve_step schema i c).curve_shader.length = c.curve_shader.length + 1 := by
  simp [load_curve_step]

theorem foldl_curve_len (schema : CurveSchema) :
    ∀ (l : List Nat) (c : CurveCache),
      (List.foldl (fun c i => load_curve_step schema i c) c l).curve_keys.length ≤
        c.curve_keys.length + l.length
      ∧ (List.foldl (fun c i => load_curve_step schema i c) c l).curve_radius.length ≤
        c.curve_radius.length + l.length
      ∧ (List.foldl (fun c i => load_curve_step schema i c) c l).curve_first_key.length ≤
        c.curve_first_key.length + l.length
      ∧ (List.foldl (fun c i => load_curve_step schema i c) c l).curve_shader.length ≤
        c.curve_shader.length + l.length := by
  intro l
  induction l with
  | nil => intro c; simp
  | cons i rest ih =>
    intro c
    obtain ⟨a1, a2, a3, a4⟩ := load_curve_step_len schema i c
    obtain ⟨b1, b2, b3, b4⟩ := ih (load_curve_step schema i c)
    simp only [List.foldl_cons, List.length_cons]
    exact ⟨by omega, by omega, by omega, by omega⟩

theorem add_attribute_bound {name : String} {n : Nat} {attrs : List CachedAttribute}
    (h : ∀ a ∈ attrs, a.data.length ≤ n) :
    ∀ a ∈ add_attribute name attrs, a.data.length ≤ n := by
  intro a ha
  unfold add_attribute at ha
  by_cases hc : attrs.any (fun a => a.name == name)
  · rw [if_pos hc] at ha
    exact h a ha
  · rw [if_neg hc] at ha
    rcases List.mem_append.mp ha with h1 | h2
    · exact h a h1
    · have : a = ⟨name, []⟩ := by simpa using h2
      simp [this]

theorem add_attribute_name_bound {name : String} {n : Nat}
    {attrs : List CachedAttribute}
    (h : ∀ a ∈ attrs, a.name = name → a.data.length ≤ n) :
    ∀ a ∈ add_attribute name attrs, a.name = name → a.data.length ≤ n := by
  intro a ha han
  unfold add_attribute at ha
  by_cases hc : attrs.any (fun a => a.name == name)
  · rw [if_pos hc] at ha
    exact h a ha han
  · rw [if_neg hc] at ha
    rcases List.mem_append.mp ha with h1 | h2
    · exact h a h1 han
    · have : a = ⟨name, []⟩ := by simpa using h2
      simp [this]

theorem add_attribute_ne_mem {name : String} {attrs : List CachedAttribute} :
    ∀ a ∈ add_attribute name attrs, a.name ≠ name → a ∈ attrs := by
  intro a ha hne
  unfold add_attribute at ha
  by_cases hc : attrs.any (fun a => a.name == name)
  · rw [if_pos hc] at ha
    exact ha
  · rw [if_neg hc] at ha
    rcases List.mem_append.mp ha with h1 | h2
    · exact h1
    · have : a = ⟨name, []⟩ := by simpa using h2
      exact absurd (by simp [this]) hne

theorem attr_add_data_bound {name : String} {e : ℚ × AttrPayload} {n : Nat} :
    ∀ {attrs : List CachedAttribute},
      (∀ a ∈ attrs, a.data.length ≤ n + 1) →
      (∀ a ∈ attrs, a.name = name → a.data.length ≤ n) →
      ∀ a ∈ attr_add_data name e attrs, a.data.length ≤ n + 1 := by
  intro attrs
  induction attrs with
  | nil => intro _ _ a ha; simp [attr_add_data] at ha
  | cons b rest ih =>
    intro h1 h2 a ha
    simp only [attr_add_data] at ha
    by_cases hb : b.name == name
    · rw [if_pos hb] at ha
      rcases List.mem_cons.mp ha with rfl | hmem
      · have hble := h2 b (List.mem_cons_self _ _) (by simpa using hb)
        simp only [List.length_append, List.length_cons, List.length_nil]
        omega
      · exact h1 a (List.mem_cons_of_mem _ hmem)
    · rw [if_neg hb] at ha
      rcases List.mem_cons.mp ha with rfl | hmem
      · exact h1 a (List.mem_cons_self _ _)
      · exact ih (fun x hx => h1 x (List.mem_cons_of_mem _ hx))
          (fun x hx => h2 x (List.mem_cons_of_mem _ hx)) a hmem

theorem attr_add_data_ne_mem {name : String} {e : ℚ × AttrPayload} :
    ∀ {attrs : List CachedAttribute}, ∀ a ∈ attr_add_data name e attrs,
      a.name ≠ name → a ∈ attrs := by
  intro attrs
  induction attrs with
  | nil => intro a ha; simp [attr_add_data] at ha
  | cons b rest ih =>
    intro a ha hne
    simp only [attr_add_data] at ha
    by_cases hb : b.name == name
    · rw [if_pos hb] at ha
      rcases List.mem_cons.mp ha with rfl | hmem
      · exact absurd (by simpa using hb) hne
      · exact List.mem_cons_of_mem _ hmem
    · rw [if_neg hb] at ha
      rcases List.mem_cons.mp ha with rfl | hmem
      · exact List.mem_cons_self _ _
      · exact List.mem_cons_of_mem _ (ih a hmem hne)

theorem read_attribute_bound (schema : MeshSchema) (i : Nat) {name : String}
    {n : Nat} {attrs : List CachedAttribute}
    (h1 : ∀ a ∈ attrs, a.data.length ≤ n + 1)
    (h2 : ∀ a ∈ attrs, a.name = name → a.data.length ≤ n) :
    ∀ a ∈ read_attribute schema i name attrs, a.data.length ≤ n + 1 := by
  unfold read_attribute
  cases schema.attrValue name i with
  | none => exact add_attribute_bound h1
  | some payload =>
    exact attr_add_data_bound (add_attribute_bound h1) (add_attribute_name_bound h2)

theorem read_attribute_ne_mem (schema : MeshSchema) (i : Nat) {name : String}
    {attrs : List CachedAttribute} :
    ∀ a ∈ read_attribute schema i name attrs, a.name ≠ name → a ∈ attrs := by
  unfold read_attribute
  cases schema.attrValue name i with
  | none => exact fun a ha hne => add_attribute_ne_mem a ha hne
  | some payload =>
    exact fun a ha hne =>
      add_attribute_ne_mem a (attr_add_data_ne_mem a ha hne) hne

theorem attr_fold_bound (schema : MeshSchema) (i : Nat) (n : Nat) :
    ∀ (names : List String) (attrs : List CachedAttribute), names.Nodup →
      (∀ a ∈ attrs, a.data.length ≤ n + 1) →
      (∀ a ∈ attrs, a.name ∈ names → a.data.length ≤ n) →
      ∀ a ∈ names.foldl (fun acc nm => read_attribute schema i nm acc) attrs,
        a.data.length ≤ n + 1 := by
  intro names
  induction names with
  | nil => intro attrs _ h1 _ a ha; exact h1 a ha
  | cons nm rem ih =>
    intro attrs hnd h1 h2
    simp only [List.foldl_cons]
    obtain ⟨hnm, hrem⟩ := List.nodup_cons.mp hnd
    apply ih _ hrem
    · exact read_attribute_bound schema i h1
        (fun a ha han => h2 a ha (by simp [han]))
    · intro a ha hin
      have hne : a.name ≠ nm := fun he => hnm (he ▸ hin)
      exact h2 a (read_attribute_ne_mem schema i a ha hne)
        (List.mem_cons_of_mem _ hin)

theorem add_positions_attributes (positions : Option (List V3)) (time : ℚ)
    (c : MeshCache) : (add_positions positions time c).attributes = c.attributes := by
  cases positions <;> rfl

theorem add_triangles_data_attributes (face_counts : Option (List Nat))
    (face_indices : Option (List Int)) (time : ℚ) (c : MeshCache) :
    (add_triangles_data face_counts face_indices time c).attributes =
      c.attributes := by
  cases face_counts <;> cases face_indices <;> rfl

theorem load_mesh_sample_attr_bound (schema : MeshSchema) (i : Nat)
    (c : MeshCache) (n : Nat) (hnd : schema.requestedAttributes.Nodup)
    (hb : ∀ a ∈ c.attributes, a.data.length ≤ n) :
    ∀ a ∈ (load_mesh_sample schema i c).attributes, a.data.length ≤ n + 1 := by
  have hpass : (add_triangles_data (schema.faceCounts i) (schema.faceIndices i)
      (schema.time i) (add_positions (schema.positions i) (schema.time i)
        c)).attributes = c.attributes := by
    rw [add_triangles_data_attributes, add_positions_attributes]
  unfold load_mesh_sample load_mesh_attributes
  simp only [hpass]
  exact attr_fold_bound schema i n schema.requestedAttributes c.attributes hnd
    (fun a ha => le_trans (hb a ha) (Nat.le_succ n)) (fun a ha _ => hb a ha)

theorem foldl_mesh_attr_bound (schema : MeshSchema)
    (hnd : schema.requestedAttributes.Nodup) :
    ∀ (l : List Nat) (c : MeshCache) (n : Nat),
      (∀ a ∈ c.attributes, a.data.length ≤ n) →
      ∀ a ∈ (List.foldl (fun c i => load_mesh_sample schema i c) c l).attributes,
        a.data.length ≤ n + l.length := by
  intro l
  induction l with
  | nil => intro c n h a ha; simpa using h a ha
  | cons i rest ih =>
    intro c n h
    simp only [List.foldl_cons, List.length_cons]
    intro a ha
    have := ih (load_mesh_sample schema i c) (n + 1)
      (load_mesh_sample_attr_bound schema i c n hnd h) a ha
    omega

/-- C9: with the cancellation flag first observed at poll point k before the
end of the sample range, both per-sample load loops stop there: the
resulting cache equals the cache built from exactly the first k samples
(whatever was written stays in place, no rollback), the final sample index
is never processed, and no cache channel — the vertex, triangle and
triangle-loop channels, each named attribute channel (with the requested
attribute names deduplicated, the set semantics of AttributeRequestSet),
and the four curve channels — holds more time-keyed entries than the k
samples processed before the flag was observed. -/
theorem cancellation_mid_load (mschema : MeshSchema) (cschema : CurveSchema)
    (cancel : Nat → Bool) (k : Nat) (hc : cancel k = true)
    (hf : ∀ j, j < k → cancel j = false) (hm : k < mschema.numSamples)
    (hcs : k < cschema.numSamples)
    (hnd : mschema.requestedAttributes.Nodup) :
    load_all_data_mesh mschema cancel = load_mesh_first mschema k
    ∧ (load_all_data_mesh mschema cancel).vertices.length ≤ k
    ∧ (load_all_data_mesh mschema cancel).triangles.length ≤ k
    ∧ (load_all_data_mesh mschema cancel).triangles_loops.length ≤ k
    ∧ (∀ a ∈ (load_all_data_mesh mschema cancel).attributes, a.data.length ≤ k)
    ∧ mschema.numSamples - 1 ∉ List.range k
    ∧ load_all_data_curves cschema cancel = load_curves_first cschema k
    ∧ (load_all_data_curves cschema cancel).curve_keys.length ≤ k
    ∧ (load_all_data_curves cschema cancel).curve_radius.length ≤ k
    ∧ (load_all_data_curves cschema cancel).curve_first_key.length ≤ k
    ∧ (load_all_data_curves cschema cancel).curve_shader.length ≤ k := by
  have hmesh : load_all_data_mesh mschema cancel = load_mesh_first mschema k :=
    cancellable_loop_first_cancel _ cancel emptyMeshCache hm hc hf
  have hcurve : load_all_data_curves cschema cancel = load_curves_first cschema k :=
    cancellable_loop_first_cancel _ cancel emptyCurveCache hcs hc hf
  obtain ⟨m1, m2, m3⟩ := foldl_mesh_len mschema (List.range k) emptyMeshCache
  obtain ⟨c1, c2, c3, c4⟩ := foldl_curve_len cschema (List.range k) emptyCurveCache
  have ma := foldl_mesh_attr_bound mschema hnd (List.range k) emptyMeshCache 0
    (by simp [emptyMeshCache])
  simp only [emptyMeshCache, emptyCurveCache, List.length_range,
    List.length_nil] at m1 m2 m3 c1 c2 c3 c4 ma
  refine ⟨hmesh, ?_, ?_, ?_, ?_, ?_, hcurve, ?_, ?_, ?_, ?_⟩
  · rw [hmesh]; simpa [load_mesh_first, emptyMeshCache] using m1
  · rw [hmesh]; simpa [load_mesh_first, emptyMeshCache] using m2
  · rw [hmesh]; simpa [load_mesh_first, emptyMeshCache] using m3
  · rw [hmesh]
    intro a ha
    have := ma a (by simpa [load_mesh_first, emptyMeshCache] using ha)
    omega
  · simp only [List.mem_range]; omega
  · rw [hcurve]; simpa [load_curves_first, emptyCurveCache] using c1
  · rw [hcurve]; simpa [load_curves_first, emptyCurveCache] using c2
  · rw [hcurve]; simpa [load_curves_first, emptyCurveCache] using c3
  · rw [hcurve]; simpa [load_curves_first, emptyCurveCache] using c4

/-- Concrete instance of cancellation_mid_load: three declared samples, the
flag first observed at poll point 1; each loader records exactly the first
sample and at most one entry per channel, attribute channels included. -/
theorem cancellation_mid_load_witness :
    load_all_data_mesh demoMeshSchema demoCancel = load_mesh_first demoMeshSchema 1
    ∧ (load_all_data_mesh demoMeshSchema demoCancel).vertices.length ≤ 1
    ∧ (∀ a ∈ (load_all_data_mesh demoMeshSchema demoCancel).attributes,
        a.data.length ≤ 1)
    ∧ load_all_data_curves demoCurveSchema demoCancel =
        load_curves_first demoCurveSchema 1
    ∧ (load_all_data_curves demoCurveSchema demoCancel).curve_keys.length ≤ 1 := by
  have h := cancellation_mid_load demoMeshSchema demoCurveSchema demoCancel 1
    (by decide) (fun j hj => by interval_cases j; decide)
    (by decide) (by decide) (by simp [demoMeshSchema])
  exact ⟨h.1, h.2.1, h.2.2.2.2.1, h.2.2.2.2.2.2.1, h.2.2.2.2.2.2.2.1⟩

end CyclesAlembic
